import Mathlib

/-
Verification development for the coupon-flyer scraping scripts (src/app).

The parsing core is embedded shallowly over `List Char` / `String`:

* Python regular expressions that the scripts use are compiled by hand into
  executable matching functions.  Each regex used by the scripts is simple
  enough that its backtracking behaviour is deterministic (greedy repetition
  of a character class followed by a character outside that class), so each
  matcher below is a direct function; the accompanying comments record the
  regex it implements.  Character classes are modelled over ASCII, which is
  the alphabet of the OCR output the scripts process.
* External collaborators (the network, OpenCV, pytesseract, rapidfuzz) are
  not part of the repository.  They enter the embedding only as opaque data:
  the OCR text a sub-image would produce, the declared content type of a
  fetched resource, the peak counts produced by edge-projection analysis, and
  a fuzzy-matching oracle `String → List String → Option String` standing for
  `rapidfuzz.process.extractOne` with `score_cutoff=80`.
* `datetime.now()` is modelled as an explicit `now : String` argument.
* Python `set` iteration over the brand catalog is modelled by the list of
  brands in enumeration order.
-/

namespace Scrapper

/-! ## Character classes (ASCII model of the Python regex classes) -/

/-- ASCII model of Python's regex `\s` / `str.strip` whitespace. -/
def isSpaceChar (c : Char) : Bool :=
  c = ' ' || c = '\t' || c = '\n' || c = '\r' || c = '\x0b' || c = '\x0c'

/-- ASCII model of Python's regex `\w` (word character). -/
def isWordChar (c : Char) : Bool :=
  ('a' ≤ c && c ≤ 'z') || ('A' ≤ c && c ≤ 'Z') || ('0' ≤ c && c ≤ '9') || c = '_'

/-- ASCII `[a-zA-Z0-9]`, the class used by the description clean-up regexes. -/
def isAlnumAscii (c : Char) : Bool :=
  ('a' ≤ c && c ≤ 'z') || ('A' ≤ c && c ≤ 'Z') || ('0' ≤ c && c ≤ '9')

/-- ASCII `[A-Z]`. -/
def isUpperAscii (c : Char) : Bool := 'A' ≤ c && c ≤ 'Z'

/-- The class `[a-zA-Z0-9&\-']` from the capitalized-token brand fallback
`re.match(r'^([A-Z][a-zA-Z0-9&\-\']+)', full_text)` in app17/app15. -/
def isBrandChar (c : Char) : Bool :=
  isAlnumAscii c || c = '&' || c = '-' || c = '\''

/-- Lower-case a character list (model of Python `str.lower()` /
`re.IGNORECASE` on ASCII text). -/
def lowerL (cs : List Char) : List Char := cs.map Char.toLower

/-! ## Generic string searching helpers -/

/-- Substring containment: `pat` occurs somewhere in the list (model of
Python's `pat in s`). -/
def containsSub (pat : List Char) : List Char → Bool
  | [] => pat.isEmpty
  | c :: rest => pat.isPrefixOf (c :: rest) || containsSub pat rest

/-- Case-insensitive substring containment (model of
`re.search(literal, s, re.IGNORECASE)` for a plain literal). -/
def containsCI (pat cs : List Char) : Bool :=
  containsSub (lowerL pat) (lowerL cs)

/-- The trailing word-boundary check of `pat(?!\w)`: the character right
after the match, if any, is not a word character. -/
def wwBoundary (pat cs : List Char) : Bool :=
  match cs.drop pat.length with
  | [] => true
  | d :: _ => !isWordChar d

/-- Scanner for `re.search(r'(?<!\w)pat(?!\w)', s)` with a literal `pat`:
`prevW` records whether the character just before the current position is a
word character (the `(?<!\w)` lookbehind). -/
def searchWWAux (pat : List Char) : Bool → List Char → Bool
  | prevW, [] => !prevW && pat.isPrefixOf ([] : List Char) && wwBoundary pat []
  | prevW, c :: rest =>
    (!prevW && pat.isPrefixOf (c :: rest) && wwBoundary pat (c :: rest))
      || searchWWAux pat (isWordChar c) rest

/-- Whole-word occurrence of the literal `pat` in `cs`, as used by the exact
brand match `re.search(rf'(?<!\w){re.escape(brand.lower())}(?!\w)',
full_text.lower())` in app17/app15. -/
def searchWW (pat cs : List Char) : Bool := searchWWAux pat false cs

/-- Case-insensitive literal match at the current position; returns the
matched text (with its original casing) and the rest. -/
def matchCI : List Char → List Char → Option (List Char × List Char)
  | [], cs => some ([], cs)
  | _ :: _, [] => none
  | l :: lt, c :: ct =>
    if c.toLower = l.toLower then
      match matchCI lt ct with
      | some (m, r) => some (c :: m, r)
      | none => none
    else none

/-- Greedy `p+` at the current position: fails unless at least one character
of the class is present. -/
def span1 (p : Char → Bool) (cs : List Char) : Option (List Char × List Char) :=
  let t := cs.takeWhile p
  if t.isEmpty then none else some (t, cs.dropWhile p)

/-! ## Splitting a block into lines / words (Python `str.split`) -/

/-- Accumulator-based splitting on the newline character
(Python `block.split('\n')`). -/
def splitOnNlAux : List Char → List Char → List (List Char)
  | acc, [] => [acc.reverse]
  | acc, c :: rest =>
    if c = '\n' then acc.reverse :: splitOnNlAux [] rest
    else splitOnNlAux (c :: acc) rest

/-- Python `s.split('\n')`. -/
def splitOnNl (cs : List Char) : List (List Char) := splitOnNlAux [] cs

/-- Python `s.strip()` (ASCII whitespace model). -/
def stripWs (cs : List Char) : List Char :=
  ((cs.dropWhile isSpaceChar).reverse.dropWhile isSpaceChar).reverse

/-- Accumulator-based whitespace-run splitting. -/
def wordsAux : List Char → List Char → List (List Char)
  | acc, [] => if acc.isEmpty then [] else [acc.reverse]
  | acc, c :: rest =>
    if isSpaceChar c then
      if acc.isEmpty then wordsAux [] rest else acc.reverse :: wordsAux [] rest
    else wordsAux (c :: acc) rest

/-- Python `s.split()` with no argument: split on whitespace runs, dropping
empty pieces. -/
def wordsOf (cs : List Char) : List (List Char) := wordsAux [] cs

/-- Model of `re.sub(r'\s+', ' ', s)`: every maximal whitespace run becomes a
single space.  The flag records whether the previous character was part of a
whitespace run already rewritten. -/
def collapseWsAux : Bool → List Char → List Char
  | _, [] => []
  | prevSp, c :: rest =>
    if isSpaceChar c then
      (if prevSp then ([] : List Char) else [' ']) ++ collapseWsAux true rest
    else c :: collapseWsAux false rest

/-- `re.sub(r'\s+', ' ', s)`. -/
def collapseWs (cs : List Char) : List Char := collapseWsAux false cs

/-! ## The discount / price / limit regexes of `parse_coupon_data` -/

/-- The keyword tail `OFF` of the discount regex: case-insensitive when
`ci = true` (the `re.IGNORECASE` searches), exact otherwise (the block-split
pattern, which has no flag). -/
def matchKeyOFF (ci : Bool) (cs : List Char) : Option (List Char × List Char) :=
  match cs with
  | c1 :: c2 :: c3 :: rest =>
    if (if ci then c1.toLower = 'o' && c2.toLower = 'f' && c3.toLower = 'f'
        else c1 = 'O' && c2 = 'F' && c3 = 'F') then
      some ([c1, c2, c3], rest)
    else none
  | _ => none

/-- The optional cents group `(?:\.\d{2})?`: consumed exactly when a dot and
two digits are present, else nothing is consumed.  (If the group is present
but the overall match later fails, the no-cents alternative also fails, since
the next pattern characters `\s*O` cannot match a dot, so this deterministic
choice agrees with the backtracking engine.) -/
def matchCents (cs : List Char) : List Char × List Char :=
  match cs with
  | p :: d1 :: d2 :: rest =>
    if p = '.' && d1.isDigit && d2.isDigit then ([p, d1, d2], rest) else ([], cs)
  | _ => ([], cs)

/-- Match of `\$\d+(?:\.\d{2})?\s*OFF` at the current position, returning the
matched text and the rest.  With `ci = true` this is the discount search of
app17 line 169 (flagged `re.IGNORECASE`); with `ci = false` it is the
look-ahead block-split marker of app17 line 125 (no flag). -/
def matchDiscountAt (ci : Bool) (cs : List Char) : Option (List Char × List Char) :=
  match cs with
  | c :: rest =>
    if c = '$' then
      let ds := rest.takeWhile Char.isDigit
      if ds.isEmpty then none
      else
        let cr := matchCents (rest.dropWhile Char.isDigit)
        let sp := cr.2.takeWhile isSpaceChar
        match matchKeyOFF ci (cr.2.dropWhile isSpaceChar) with
        | some (off, r4) => some (c :: (ds ++ cr.1 ++ sp ++ off), r4)
        | none => none
    else none
  | [] => none

/-- Leftmost match of the discount pattern
(`re.search(r'\$[0-9]+(?:\.\d{2})?\s*OFF', text, re.IGNORECASE)`). -/
def searchDiscount (ci : Bool) : List Char → Option (List Char)
  | [] => none
  | c :: rest =>
    match matchDiscountAt ci (c :: rest) with
    | some (m, _) => some m
    | none => searchDiscount ci rest

/-- The zero-width block-split marker `(?=\$\d+(?:\.\d{2})?\s*OFF)` holds at
the current position. -/
def markerAt (cs : List Char) : Bool := (matchDiscountAt false cs).isSome

/-- Whether the marker holds at any position of the text. -/
def hasMarker : List Char → Bool
  | [] => false
  | c :: rest => markerAt (c :: rest) || hasMarker rest

/-- Worker for `re.split(r'(?=\$\d+(?:\.\d{2})?\s*OFF)', text)`: Python 3.7+
splits at every position where the zero-width look-ahead matches (including
position 0, which yields a leading empty piece). -/
def goSplit : List Char → List Char → List (List Char)
  | acc, [] => [acc.reverse]
  | acc, c :: rest =>
    if markerAt (c :: rest) then acc.reverse :: goSplit [c] rest
    else goSplit (c :: acc) rest

/-- `re.split(r'(?=\$\d+(?:\.\d{2})?\s*OFF)', text)` — the block segmentation
of `parse_coupon_data` (app17 line 125). -/
def splitBlocks (cs : List Char) : List (List Char) := goSplit [] cs

/-- Match of the second limit alternative `While\s+supplies\s+last`
(case-insensitive) at the current position. -/
def matchWhileAt (cs : List Char) : Option (List Char) :=
  match matchCI "While".toList cs with
  | some (k1, r1) =>
    match span1 isSpaceChar r1 with
    | some (s1, r2) =>
      match matchCI "supplies".toList r2 with
      | some (k2, r3) =>
        match span1 isSpaceChar r3 with
        | some (s2, r4) =>
          match matchCI "last".toList r4 with
          | some (k3, _) => some (k1 ++ s1 ++ k2 ++ s2 ++ k3)
          | none => none
        | none => none
      | none => none
    | none => none
  | none => none

/-- Match of `(Limit\s+\d+|While\s+supplies\s+last)` (case-insensitive) at
the current position; the left alternative is preferred, as in the regex
engine. -/
def matchLimitAt (cs : List Char) : Option (List Char) :=
  match matchCI "Limit".toList cs with
  | some (k, r) =>
    (match span1 isSpaceChar r with
     | some (sp, r2) =>
       match span1 Char.isDigit r2 with
       | some (ds, _) => some (k ++ sp ++ ds)
       | none => matchWhileAt cs
     | none => matchWhileAt cs)
  | none => matchWhileAt cs

/-- `re.search(r'(Limit\s+\d+|While\s+supplies\s+last)', text, re.IGNORECASE)`
(app17 line 172). -/
def searchLimit : List Char → Option (List Char)
  | [] => none
  | c :: rest =>
    match matchLimitAt (c :: rest) with
    | some m => some m
    | none => searchLimit rest

/-- Match of the price pattern `\$[0-9]+\.\d{2}` at the current position,
returning the matched text and the rest (app17 line 173). -/
def matchPriceAt (cs : List Char) : Option (List Char × List Char) :=
  match cs with
  | c :: rest =>
    if c = '$' then
      let ds := rest.takeWhile Char.isDigit
      match rest.dropWhile Char.isDigit with
      | p :: d1 :: d2 :: r2 =>
        if p = '.' && !ds.isEmpty && d1.isDigit && d2.isDigit then
          some (c :: ds ++ p :: d1 :: d2 :: [], r2)
        else none
      | _ => none
    else none
  | [] => none

/-- `re.search(r'\$[0-9]+\.\d{2}', text)`. -/
def searchPrice : List Char → Option (List Char)
  | [] => none
  | c :: rest =>
    match matchPriceAt (c :: rest) with
    | some (m, _) => some m
    | none => searchPrice rest

/-! ## The app11 variant of the price extractor (negative look-ahead) -/

/-- The look-ahead body `\s*(?:OFF|off|Save|SAVE)` from the app11 price regex
`\$[0-9]+\.\d{2}(?!\s*(?:OFF|off|Save|SAVE))` (app11 line 197): after optional
whitespace, one of the four literal keywords starts here.  All four keywords
begin with a non-whitespace character, so the greedy whitespace consumption is
the only viable one, making this deterministic test faithful. -/
def saveKeyAfter (cs : List Char) : Bool :=
  let r := cs.dropWhile isSpaceChar
  "OFF".toList.isPrefixOf r || "off".toList.isPrefixOf r ||
    "Save".toList.isPrefixOf r || "SAVE".toList.isPrefixOf r

/-- Match of `\$[0-9]+\.\d{2}(?!\s*(?:OFF|off|Save|SAVE))` at the current
position (the app11 price extractor, evaluated on the block). -/
def matchPriceAt11 (cs : List Char) : Option (List Char × List Char) :=
  match matchPriceAt cs with
  | some (m, r) => if saveKeyAfter r then none else some (m, r)
  | none => none

/-- Leftmost match of the app11 price pattern, returned with its context:
`some (pre, m, rest)` means the input is `pre ++ m ++ rest` with `m` the
matched text. -/
def searchPrice11 : List Char → Option (List Char × List Char × List Char)
  | [] => none
  | c :: rest =>
    match matchPriceAt11 (c :: rest) with
    | some (m, r) => some ([], m, r)
    | none =>
      match searchPrice11 rest with
      | some (p, m, r) => some (c :: p, m, r)
      | none => none

/-! ## Brand resolution (app17 lines 138-155) -/

/-- The exact catalog test for one brand: whole-word, case-insensitive
occurrence in the block text. -/
def exactBrandHit (b : String) (fullText : List Char) : Bool :=
  searchWW (lowerL b.toList) (lowerL fullText)

/-- `' '.join(full_text.split()[:n])`. -/
def leadWords (n : Nat) (fullText : List Char) : List Char :=
  List.intercalate [' '] ((wordsOf fullText).take n)

/-- `fuzzy_find_brand` (app17 lines 113-122): delegate to the rapidfuzz
oracle `fz` unless the catalog is empty.  The oracle stands for
`process.extractOne(ocr_text, known_brands, score_cutoff=80)`. -/
def fuzzyFindBrand (fz : String → List String → Option String)
    (q : String) (brands : List String) : Option String :=
  if brands.isEmpty then none else fz q brands

/-- `re.match(r'^([A-Z][a-zA-Z0-9&\-\']+)', full_text)`: a leading capital
followed by one or more brand characters (so a lone capital does not match). -/
def capToken (cs : List Char) : Option (List Char) :=
  match cs with
  | c :: rest =>
    if isUpperAscii c then
      let t := rest.takeWhile isBrandChar
      if t.isEmpty then none else some (c :: t)
    else none
  | [] => none

/-- Brand resolution of app17 `parse_coupon_data`: first exact whole-word
catalog hit in catalog enumeration order, else the fuzzy match on the first
three words, else the leading capitalized token, else the empty string. -/
def brandOf (brands : List String) (fz : String → List String → Option String)
    (fullText : List Char) : String :=
  match brands.find? (fun b => exactBrandHit b fullText) with
  | some b => b
  | none =>
    match fuzzyFindBrand fz (leadWords 3 fullText).asString brands with
    | some fb => fb
    | none =>
      match capToken fullText with
      | some t => t.asString
      | none => ""

/-! ## Description extraction (app17 lines 157-166) -/

/-- The separator class `[\s:,-]` that the brand-removal regex consumes after
the brand. -/
def sepChar (c : Char) : Bool := isSpaceChar c || c = ':' || c = ',' || c = '-'

/-- `re.compile(rf'^{re.escape(item_brand)}[\s:,-]*', re.IGNORECASE).sub('', s)`:
if the text begins (case-insensitively) with the brand, remove it and the
following separator run; otherwise the text is unchanged. -/
def dropBrandHead (brand : String) (cs : List Char) : List Char :=
  if (lowerL brand.toList).isPrefixOf (lowerL cs) then
    (cs.drop brand.toList.length).dropWhile sepChar
  else cs

/-- Description extraction: start from the stripped block text, remove one
leading brand occurrence when a brand was resolved, strip non-alphanumeric
characters from both ends, and collapse whitespace runs. -/
def descOf (fullText : List Char) (brand : String) : List Char :=
  let d0 := stripWs fullText
  let d1 := if brand.isEmpty then d0 else stripWs (dropBrandHead brand d0)
  let d2 := d1.dropWhile (fun c => !isAlnumAscii c)
  let d3 := (d2.reverse.dropWhile (fun c => !isAlnumAscii c)).reverse
  collapseWs d3

/-! ## Block filters and record assembly (app17 lines 124-200) -/

/-- The boilerplate-exclusion search
`re.search(r'BOOK WITH|TRAVEL|PACKAGE|^\W+$', full_text, re.IGNORECASE)`:
one of the three literals occurs, or the whole (non-empty) text consists of
non-word characters. -/
def exclusionHit (fullText : List Char) : Bool :=
  containsCI "BOOK WITH".toList fullText || containsCI "TRAVEL".toList fullText ||
    containsCI "PACKAGE".toList fullText ||
    (!fullText.isEmpty && fullText.all (fun c => !isWordChar c))

/-- The stripped non-empty lines of a block
(`[line.strip() for line in block.split('\n') if line.strip()]`). -/
def blockLines (block : List Char) : List (List Char) :=
  ((splitOnNl block).map stripWs).filter (fun l => !l.isEmpty)

/-- `' '.join(lines)` for a block. -/
def blockFullText (block : List Char) : List Char :=
  List.intercalate [' '] (blockLines block)

/-- One extracted coupon record (the `row` dict of app17, in column order). -/
structure CouponRow where
  scrape_datetime : String
  article_name : String
  publish_date : String
  item_brand : String
  item_description : String
  discount : String
  discount_cleaned : String
  count_limit : String
  channel : String
  discount_period : String
  item_original_price : String
  source_url : String
deriving DecidableEq, Repr

/-- `discount_match.group(0) if discount_match else ""` — note the search
runs over the whole OCR text, not the block (app17 line 169). -/
def discountStr (textCs : List Char) : String :=
  match searchDiscount true textCs with
  | some m => m.asString
  | none => ""

/-- `re.sub(r'[^\d.]', '', discount) if discount else ""` (app17 line 171). -/
def discountCleanedStr (textCs : List Char) : String :=
  match searchDiscount true textCs with
  | some m => (m.filter (fun c => c.isDigit || c = '.')).asString
  | none => ""

/-- `limit.group(0) if limit else ""` — searched over the whole text. -/
def limitStr (textCs : List Char) : String :=
  match searchLimit textCs with
  | some m => m.asString
  | none => ""

/-- `price.group(0) if price else ""` — searched over the whole text. -/
def priceStr (textCs : List Char) : String :=
  match searchPrice textCs with
  | some m => m.asString
  | none => ""

/-- Channel detection for hot-buy flyers: `'warehouse' in text.lower()` /
`'online' in text.lower()` over the whole text (app17 lines 174-183). -/
def channelStr (isHot : Bool) (textCs : List Char) : String :=
  if isHot then
    let wh := containsSub "warehouse".toList (lowerL textCs)
    let onl := containsSub "online".toList (lowerL textCs)
    if wh && onl then "In-Warehouse + Online"
    else if wh then "In-Warehouse"
    else if onl then "Online"
    else ""
  else ""

/-- The per-block body of app17 `parse_coupon_data`: `none` when the block is
skipped (`continue`), otherwise the assembled record.  `textCs` is the whole
OCR text — the discount, limit, price and channel extractors read it, not the
block. -/
def mkRecord17 (textCs : List Char) (sourceUrl : String) (isHot : Bool)
    (brands : List String) (fz : String → List String → Option String)
    (now : String) (block : List Char) : Option CouponRow :=
  let lines := blockLines block
  if lines.isEmpty then none
  else
    let fullText := blockFullText block
    if fullText.length < 10 || exclusionHit fullText then none
    else
      let brand := brandOf brands fz fullText
      some { scrape_datetime := now
             article_name := if isHot then "Costco April 2025 Hot Buys Coupons"
                             else "Costco April 2025 Coupon Book"
             publish_date := if isHot then "2025-03-28 00:00:00" else "2025-04-01 00:00:00"
             item_brand := brand
             item_description := (descOf fullText brand).asString
             discount := discountStr textCs
             discount_cleaned := discountCleanedStr textCs
             count_limit := limitStr textCs
             channel := channelStr isHot textCs
             discount_period := if isHot then "March 29th through April 6th"
                                else "April 9th through May 4th"
             item_original_price := priceStr textCs
             source_url := sourceUrl }

/-- `parse_coupon_data` of app17: split the text into blocks at the discount
markers, then assemble one record per surviving block. -/
def parse17 (text : String) (sourceUrl : String) (isHot : Bool)
    (brands : List String) (fz : String → List String → Option String)
    (now : String) : List CouponRow :=
  (splitBlocks text.toList).filterMap
    (mkRecord17 text.toList sourceUrl isHot brands fz now)

/-! ## The OCR glyph-correction table (app17 `extract_text_from_image`) -/

/-- Fuel-indexed worker for Python `str.replace(pat, rep)`: non-overlapping
left-to-right replacement.  The fuel is initialised to the input length and
never runs out on those calls (each step consumes at least one input
character and at most that much fuel). -/
def replaceGo (pat rep : List Char) : Nat → List Char → List Char
  | _, [] => []
  | 0, cs => cs
  | fuel + 1, c :: rest =>
    if !pat.isEmpty && pat.isPrefixOf (c :: rest) then
      rep ++ replaceGo pat rep fuel (rest.drop (pat.length - 1))
    else
      c :: replaceGo pat rep fuel rest

/-- Python `s.replace(pat, rep)` on character lists. -/
def replaceAll (pat rep cs : List Char) : List Char :=
  replaceGo pat rep cs.length cs

/-- The correction loop of app17 `extract_text_from_image` (lines 99-107):
the dict `{'|': 'I', '1': 'I', '0': 'O', 'vv': 'W', '$': 'S'}` is iterated in
insertion order, applying `text.replace(wrong, right)` for each entry. -/
def applyOcrCorrections (text : String) : String :=
  let t1 := replaceAll "|".toList "I".toList text.toList
  let t2 := replaceAll "1".toList "I".toList t1
  let t3 := replaceAll "0".toList "O".toList t2
  let t4 := replaceAll "vv".toList "W".toList t3
  (replaceAll "$".toList "S".toList t4).asString

/-! ## The dynamic grid splitter (app14 `split_grid_image_dynamic`) -/

/-- Column count of app14 lines 164-165: `len(vertical_peaks) + 1` when any
peak was detected, else 4 for wide images (width > 900) and 3 otherwise.  The
peak count is the output of the external Canny/projection analysis and enters
the embedding as a parameter. -/
def gridCols (width vPeakCount : Nat) : Nat :=
  if 0 < vPeakCount then vPeakCount + 1 else (if 900 < width then 4 else 3)

/-- Row count of app14 line 166: `len(horizontal_peaks) + 1` when any peak
was detected, else 2. -/
def gridRows (hPeakCount : Nat) : Nat :=
  if 0 < hPeakCount then hPeakCount + 1 else 2

/-- A PIL crop box `(left, upper, right, lower)`; it covers the pixels
`left ≤ x < right`, `upper ≤ y < lower`. -/
structure CropBox where
  left : Nat
  upper : Nat
  right : Nat
  lower : Nat
deriving DecidableEq, Repr

/-- The crop boxes produced by app14 lines 168-179: cell sizes are the floor
divisions `width // columns` and `height // rows`, and the boxes are emitted
row-major. -/
def gridBoxes (width height vPeakCount hPeakCount : Nat) : List CropBox :=
  let cols := gridCols width vPeakCount
  let rows := gridRows hPeakCount
  let cw := width / cols
  let ch := height / rows
  (List.range rows).flatMap fun row =>
    (List.range cols).map fun col =>
      { left := col * cw, upper := row * ch, right := (col + 1) * cw, lower := (row + 1) * ch }

/-- Pixel membership in a crop box. -/
def inBox (x y : Nat) (b : CropBox) : Bool :=
  b.left ≤ x && x < b.right && b.upper ≤ y && y < b.lower

/-- In how many of the boxes the pixel `(x, y)` lies. -/
def coverCount (bs : List CropBox) (x y : Nat) : Nat :=
  bs.countP (inBox x y)

/-! ## Pagination (app17 `scrape_images_from_page`, lines 238-243) -/

/-- The recursive next-page traversal of app17: the page at `u` is processed,
then, when the page has a next link, the function calls itself on that link
and appends the result — with no visited set.  The Python recursion is
embedded with explicit fuel standing for the call-stack bound: `none` means
the recursion did not bottom out within `fuel` nested calls, so the traversal
terminates if and only if some fuel returns `some`.  The result lists the
pages processed, in order. -/
def crawlPages (next : String → Option String) : Nat → String → Option (List String)
  | 0, _ => none
  | fuel + 1, u =>
    match next u with
    | none => some [u]
    | some v =>
      match crawlPages next fuel v with
      | none => none
      | some l => some (u :: l)

/-- The sequence of URLs the traversal visits within the first `fuel` nested
calls (a prefix of the possibly infinite visit sequence). -/
def crawlTrace (next : String → Option String) : Nat → String → List String
  | 0, _ => []
  | fuel + 1, u =>
    u :: (match next u with
          | none => []
          | some v => crawlTrace next fuel v)

/-- The chain of next links starting at `u` reaches a page with no next link
within `fuel` steps. -/
def stopsWithin (next : String → Option String) : Nat → String → Bool
  | 0, _ => false
  | fuel + 1, u =>
    match next u with
    | none => true
    | some v => stopsWithin next fuel v

/-- A site whose single page links to itself as its own next page. -/
def selfNext : String → Option String := fun _ => some "pageA"

/-! ## The per-image loop of `scrape_images_from_page` (app17 lines 224-237) -/

/-- One fetched image resource, as the loop body sees it: its URL, the
declared `Content-Type` header, and the text that
`extract_text_from_image` would return for it (OCR itself is external). -/
structure FetchedImage where
  imgUrl : String
  contentType : String
  ocrText : String
deriving DecidableEq, Repr

/-- The content-type gate of `download_image` (app17 line 73):
`res.headers.get("Content-Type", "").startswith("image")`.  When it fails the
function returns `None` instead of an image and the caller skips the item. -/
def contentTypeIsImage (ct : String) : Bool := "image".toList.isPrefixOf ct.toList

/-- The per-image loop of app17 `scrape_images_from_page`: items whose
download fails are skipped (`continue`), items with empty OCR text are
skipped, and the records parsed from the rest are appended in order. -/
def processImages (isHot : Bool) (brands : List String)
    (fz : String → List String → Option String) (now : String)
    (items : List FetchedImage) : List CouponRow :=
  items.flatMap fun it =>
    if contentTypeIsImage it.contentType then
      if it.ocrText.isEmpty then []
      else parse17 it.ocrText it.imgUrl isHot brands fz now
    else []

/-! ## Spec-side strategy chain for brand resolution (for refinement) -/

/-- Strategy 1 of the specified brand-resolution chain: exact whole-word
catalog match. -/
def exactStrategy (brands : List String) (fullText : List Char) : Option String :=
  brands.find? (fun b => exactBrandHit b fullText)

/-- Strategy 2: fuzzy match of the block's leading three words against the
catalog. -/
def fuzzyStrategy (fz : String → List String → Option String)
    (brands : List String) (fullText : List Char) : Option String :=
  fuzzyFindBrand fz (leadWords 3 fullText).asString brands

/-- Strategy 3: the leading capitalized token. -/
def capStrategy (fullText : List Char) : Option String :=
  (capToken fullText).map List.asString

/-- The ordered strategy chain, evaluated until one strategy succeeds. -/
def brandChain (brands : List String) (fz : String → List String → Option String)
    (fullText : List Char) : Option String :=
  (exactStrategy brands fullText).orElse fun _ =>
    (fuzzyStrategy fz brands fullText).orElse fun _ => capStrategy fullText

/-- A record with its capture timestamp blanked, for comparing two runs that
differ only in capture time. -/
def recNoTime (r : CouponRow) : CouponRow := { r with scrape_datetime := "" }

/-! ## Helper lemmas -/

/-- When no split marker occurs in the remaining text, the split worker
returns a single piece: the accumulator followed by the rest. -/
theorem goSplit_of_no_marker (cs : List Char) : ∀ acc : List Char,
    hasMarker cs = false → goSplit acc cs = [acc.reverse ++ cs] := by
  induction cs with
  | nil => intro acc _; simp [goSplit]
  | cons c rest ih =>
    intro acc h
    rw [hasMarker] at h
    have h1 : markerAt (c :: rest) = false := by
      cases hm : markerAt (c :: rest) <;> simp [hm] at h ⊢
    have h2 : hasMarker rest = false := by
      cases hm : hasMarker rest <;> simp [hm] at h ⊢
    rw [goSplit, if_neg (by simp [h1]), ih _ h2]
    simp

/-- Marker-free text is returned by the block segmentation as one block. -/
theorem splitBlocks_of_no_marker (cs : List Char) (h : hasMarker cs = false) :
    splitBlocks cs = [cs] := by
  unfold splitBlocks
  rw [goSplit_of_no_marker cs [] h]
  simp

/-- `filterMap` over a one-element list. -/
theorem filterMap_singleton {α β : Type} (f : α → Option β) (a : α) :
    [a].filterMap f = (f a).toList := by
  cases h : f a <;> simp [List.filterMap, h]

end Scrapper

namespace Scrapper

/-! ## Claim C1 -/

/-- C1 counterexample: the OCR text `"Kirkland paper towels on sale now"`
contains no discount marker, yet the block segmentation yields one block (the
whole text is not discarded) and `parse_coupon_data` returns one record, not
an empty list.  This refutes the claim that marker-free text yields zero
blocks and zero records. -/
theorem c1_counterexample :
    hasMarker ("Kirkland paper towels on sale now").toList = false ∧
    splitBlocks ("Kirkland paper towels on sale now").toList ≠ [] ∧
    (parse17 "Kirkland paper towels on sale now" "u" false [] (fun _ _ => none)
      "t0").length = 1 := by
  refine ⟨by decide, by decide, by decide⟩

/-- C1 (amended): for OCR text with no discount-marker occurrence, the block
segmentation of `parse_coupon_data` yields exactly one block — the whole text,
which is not discarded — and the record list is exactly the result of the
per-block body on that single block (so one record when the text passes the
minimum-length and boilerplate filters, zero otherwise). -/
theorem c1_theorem (text url : String) (isHot : Bool) (brands : List String)
    (fz : String → List String → Option String) (now : String)
    (h : hasMarker text.toList = false) :
    splitBlocks text.toList = [text.toList] ∧
    parse17 text url isHot brands fz now =
      (mkRecord17 text.toList url isHot brands fz now text.toList).toList := by
  have hs := splitBlocks_of_no_marker text.toList h
  refine ⟨hs, ?_⟩
  unfold parse17
  rw [hs, filterMap_singleton]

/-- C1 witness: the amended theorem applied at a concrete marker-free text. -/
theorem c1_witness :
    hasMarker ("Big Sale Items today only").toList = false ∧
    (splitBlocks ("Big Sale Items today only").toList =
        [("Big Sale Items today only").toList] ∧
      parse17 "Big Sale Items today only" "u" false [] (fun _ _ => none) "t0" =
        (mkRecord17 ("Big Sale Items today only").toList "u" false []
          (fun _ _ => none) "t0" ("Big Sale Items today only").toList).toList) :=
  ⟨by decide,
   c1_theorem "Big Sale Items today only" "u" false [] (fun _ _ => none) "t0" (by decide)⟩

/-! ## Claim C5 -/

/-- C5 counterexample: with an empty catalog, the surviving non-empty block
`"the paper towels are good deals"` (which begins with a lower-case word)
produces a record whose `item_brand` is empty — there is no final
first-tokens fallback, refuting the claim that every surviving block gets a
non-empty brand. -/
theorem c5_counterexample :
    (parse17 "the paper towels are good deals" "u" false [] (fun _ _ => none)
        "t0").map (fun r => r.item_brand) = [""] := by
  decide

/-- C5 (amended): brand resolution is the ordered strategy chain
exact-whole-word catalog match, then fuzzy match of the block's first three
words, then a single leading capitalized token of at least two characters,
defaulting to the empty string — there is no step matching a multi-token
capitalized sequence and no first-one-to-two-tokens fallback, so `item_brand`
can be empty for a surviving block. -/
theorem c5_theorem (brands : List String) (fz : String → List String → Option String)
    (fullText : List Char) :
    brandOf brands fz fullText = (brandChain brands fz fullText).getD "" := by
  unfold brandOf brandChain exactStrategy fuzzyStrategy capStrategy
  cases h1 : brands.find? (fun b => exactBrandHit b fullText) with
  | some b => simp [Option.orElse]
  | none =>
    cases h2 : fuzzyFindBrand fz (leadWords 3 fullText).asString brands with
    | some fb => simp [Option.orElse]
    | none =>
      cases h3 : capToken fullText with
      | some t => simp [Option.orElse]
      | none => simp [Option.orElse]

/-! ## Claim C9 -/

/-- C9 counterexample: on a site whose page links to itself as its own next
page, the traversal of app17 (direct recursion, no visited set) never
terminates — no recursion budget completes — and already within two nested
calls it visits the same URL twice.  This refutes the claim that the
traversal is an iterative loop with a visited set that visits each URL at
most once and terminates on every site graph. -/
theorem c9_counterexample :
    (¬ ∃ fuel out, crawlPages selfNext fuel "pageA" = some out) ∧
    crawlTrace selfNext 2 "pageA" = ["pageA", "pageA"] := by
  constructor
  · rintro ⟨fuel, out, h⟩
    have hall : ∀ n u, crawlPages selfNext n u = none := by
      intro n
      induction n with
      | zero => intro u; rfl
      | succ k ih => intro u; simp [crawlPages, selfNext, ih]
    rw [hall fuel "pageA"] at h
    cases h
  · rfl

/-- C9 (amended): pagination follows next-page links by direct recursion with
no visited set; the traversal completes within a given recursion budget if
and only if the chain of next links from the start reaches a page without a
next link within that budget.  In particular cyclic or self-referential
next-link chains never terminate. -/
theorem c9_theorem (next : String → Option String) :
    ∀ (fuel : Nat) (u : String),
      (crawlPages next fuel u).isSome = stopsWithin next fuel u := by
  intro fuel
  induction fuel with
  | zero => intro u; rfl
  | succ k ih =>
    intro u
    cases hn : next u with
    | none => simp [crawlPages, stopsWithin, hn]
    | some v =>
      simp only [crawlPages, stopsWithin, hn]
      rw [← ih v]
      cases hc : crawlPages next k v <;> simp [hc]

/-! ## Claim C10 -/

/-- C10 counterexample: the same brand-catalog set `{Charmin, Huggies}`
enumerated in two different orders makes `parse_coupon_data` resolve
different brands for the same OCR text, because the exact-match loop breaks
at the first catalog entry in enumeration order.  This refutes determinism
regardless of the catalog set's enumeration order. -/
theorem c10_counterexample :
    (parse17 "Charmin Huggies diapers mega pack" "u" false ["Charmin", "Huggies"]
        (fun _ _ => none) "t0").map (fun r => r.item_brand) = ["Charmin"] ∧
    (parse17 "Charmin Huggies diapers mega pack" "u" false ["Huggies", "Charmin"]
        (fun _ _ => none) "t0").map (fun r => r.item_brand) = ["Huggies"] :=
  ⟨by decide, by decide⟩

/-- The per-block body depends on the capture time only through the
`scrape_datetime` field. -/
theorem mkRecord17_time (textCs : List Char) (url : String) (isHot : Bool)
    (brands : List String) (fz : String → List String → Option String)
    (now : String) (block : List Char) :
    (mkRecord17 textCs url isHot brands fz now block).map recNoTime =
      (mkRecord17 textCs url isHot brands fz "" block).map recNoTime := by
  unfold mkRecord17
  by_cases h1 : (blockLines block).isEmpty = true
  · simp [h1]
  · by_cases h2 : (decide ((blockFullText block).length < 10)
        || exclusionHit (blockFullText block)) = true
    · simp [h1, h2]
    · simp [h1, h2, recNoTime]

/-- C10 (amended): for a fixed OCR text, flyer type, catalog enumeration
order and fuzzy-matching oracle, two evaluations of `parse_coupon_data`
produce identical record sequences in all fields except `scrape_datetime`
(the capture-time field), whatever the two capture times are.  Determinism
holds per enumeration order of the catalog, not per catalog set. -/
theorem c10_theorem (text url : String) (isHot : Bool) (brands : List String)
    (fz : String → List String → Option String) (t1 t2 : String) :
    (parse17 text url isHot brands fz t1).map recNoTime =
      (parse17 text url isHot brands fz t2).map recNoTime := by
  unfold parse17
  rw [List.map_filterMap, List.map_filterMap]
  induction splitBlocks text.toList with
  | nil => rfl
  | cons b bs ih =>
    rw [List.filterMap_cons, List.filterMap_cons]
    rw [mkRecord17_time text.toList url isHot brands fz t1 b,
        mkRecord17_time text.toList url isHot brands fz t2 b]
    cases h : (mkRecord17 text.toList url isHot brands fz "" b).map recNoTime with
    | none => simpa using ih
    | some r => simpa using ih

/-! ## Claim C8 -/

/-- C8: an item whose declared content type is not an image type is rejected
by the download stage (modelled by the `Option`-returning gate, as the Python
`try`/`except` returns `None` rather than raising), contributes zero records,
and the items after it are processed exactly as if it were absent. -/
theorem c8_theorem (isHot : Bool) (brands : List String)
    (fz : String → List String → Option String) (now : String)
    (pre suf : List FetchedImage) (bad : FetchedImage)
    (hbad : contentTypeIsImage bad.contentType = false) :
    processImages isHot brands fz now (pre ++ bad :: suf) =
      processImages isHot brands fz now pre ++ processImages isHot brands fz now suf := by
  unfold processImages
  rw [List.flatMap_append, List.flatMap_cons, hbad]
  simp

/-- C8 witness: a concrete `text/html` item between two image items. -/
theorem c8_witness :
    contentTypeIsImage ("text/html" : String) = false ∧
    processImages false [] (fun _ _ => none) "t0"
        ([⟨"http://a/1.png", "image/png", "Kirkland paper towels on sale now"⟩] ++
          ⟨"http://a/x", "text/html", "nope things here maybe"⟩ ::
            [⟨"http://a/2.png", "image/jpeg", "Charmin ultra soft mega rolls"⟩]) =
      processImages false [] (fun _ _ => none) "t0"
          [⟨"http://a/1.png", "image/png", "Kirkland paper towels on sale now"⟩] ++
        processImages false [] (fun _ _ => none) "t0"
          [⟨"http://a/2.png", "image/jpeg", "Charmin ultra soft mega rolls"⟩] :=
  ⟨by decide,
   c8_theorem false [] (fun _ _ => none) "t0"
     [⟨"http://a/1.png", "image/png", "Kirkland paper towels on sale now"⟩]
     [⟨"http://a/2.png", "image/jpeg", "Charmin ultra soft mega rolls"⟩]
     ⟨"http://a/x", "text/html", "nope things here maybe"⟩ (by decide)⟩

/-! ## Claim C2 -/

/-- A price match decomposes its input: the matched text followed by the
rest. -/
theorem matchPriceAt_append (cs m r : List Char) (h : matchPriceAt cs = some (m, r)) :
    cs = m ++ r := by
  cases cs with
  | nil => simp [matchPriceAt] at h
  | cons c rest =>
    have hsplit := List.takeWhile_append_dropWhile Char.isDigit rest
    by_cases hc : c = '$'
    · subst hc
      cases hd : rest.dropWhile Char.isDigit with
      | nil => simp [matchPriceAt, hd] at h
      | cons p tl =>
        cases tl with
        | nil => simp [matchPriceAt, hd] at h
        | cons d1 tl2 =>
          cases tl2 with
          | nil => simp [matchPriceAt, hd] at h
          | cons d2 r2 =>
            simp only [matchPriceAt, hd] at h
            by_cases hcond : (p = '.' && !(rest.takeWhile Char.isDigit).isEmpty &&
                d1.isDigit && d2.isDigit) = true
            · simp only [hcond, if_true, Option.some.injEq, Prod.mk.injEq] at h
              obtain ⟨hm, hr⟩ := h
              subst hm hr
              have hrest : rest = List.takeWhile Char.isDigit rest ++ p :: d1 :: d2 :: r2 := by
                rw [← hd]
                exact hsplit.symm
              conv_lhs => rw [hrest]
              simp
            · rw [if_neg hcond] at h
              cases h
    · simp [matchPriceAt, hc] at h

/-- The app11 price matcher only succeeds when the negative look-ahead
holds: the rest of the input does not begin with optional whitespace followed
by one of the literal keywords. -/
theorem matchPriceAt11_spec (cs m r : List Char)
    (h : matchPriceAt11 cs = some (m, r)) :
    cs = m ++ r ∧ saveKeyAfter r = false := by
  cases hp : matchPriceAt cs with
  | none => simp [matchPriceAt11, hp] at h
  | some mr =>
    obtain ⟨m1, r1⟩ := mr
    simp only [matchPriceAt11, hp] at h
    by_cases hk : saveKeyAfter r1 = true
    · rw [if_pos hk] at h; cases h
    · rw [if_neg hk] at h
      rw [Option.some.injEq, Prod.mk.injEq] at h
      obtain ⟨hm, hr⟩ := h
      subst hm hr
      exact ⟨matchPriceAt_append cs _ _ hp, by simpa using hk⟩

/-- C2 (amended): in the app11 variant the price extractor runs on the block
and carries the negative look-ahead `(?!\s*(?:OFF|off|Save|SAVE))`: whenever
it matches, the text right after the matched amount does not begin with
optional whitespace and one of those four literal keywords, so a
currency-amount-with-cents written directly before `OFF`/`SAVE` (in those
casings) is never taken as the original price.  In the app17 variant the
discount and price searches instead read the whole OCR text and the price
pattern has no such exclusion, so one numeric span can populate both fields
(see the counterexample). -/
theorem c2_theorem (cs pre m r : List Char)
    (h : searchPrice11 cs = some (pre, m, r)) :
    cs = pre ++ m ++ r ∧ saveKeyAfter r = false := by
  induction cs generalizing pre with
  | nil => cases h
  | cons c rest ih =>
    cases hm : matchPriceAt11 (c :: rest) with
    | some mr =>
      obtain ⟨m1, r1⟩ := mr
      simp only [searchPrice11, hm, Option.some.injEq, Prod.mk.injEq] at h
      obtain ⟨h1, h2, h3⟩ := h
      subst h1
      subst h2
      subst h3
      have hspec := matchPriceAt11_spec (c :: rest) _ _ hm
      simpa using hspec
    | none =>
      cases hs : searchPrice11 rest with
      | none => simp [searchPrice11, hm, hs] at h
      | some pmr =>
        obtain ⟨p1, m1, r1⟩ := pmr
        simp only [searchPrice11, hm, hs, Option.some.injEq, Prod.mk.injEq] at h
        obtain ⟨h1, h2, h3⟩ := h
        subst h1
        subst h2
        subst h3
        obtain ⟨ha, hb⟩ := ih p1 hs
        exact ⟨by rw [ha]; simp, hb⟩

/-- C2 counterexample: in app17, the discount and price extractors read the
whole OCR text, not the block, and the price pattern has no OFF/SAVE
exclusion.  On `"Kirkland Towels Pack $19.99 OFF"` both surviving blocks get
`discount = "$19.99 OFF"` and `item_original_price = "$19.99"` — the same
numeric span populates both fields, and the first block's fields do not even
come from its own text. -/
theorem c2_counterexample :
    (parse17 "Kirkland Towels Pack $19.99 OFF" "u" false [] (fun _ _ => none)
        "t0").map (fun r => (r.discount, r.item_original_price)) =
      [("$19.99 OFF", "$19.99"), ("$19.99 OFF", "$19.99")] := by
  decide

/-- C2 witness: the amended theorem applied to a concrete block. -/
theorem c2_witness :
    searchPrice11 ("Towels $19.99 regular price").toList =
      some (("Towels ").toList, ("$19.99").toList, (" regular price").toList) ∧
    (("Towels $19.99 regular price").toList =
        ("Towels ").toList ++ ("$19.99").toList ++ (" regular price").toList ∧
      saveKeyAfter (" regular price").toList = false) :=
  ⟨by decide, c2_theorem ("Towels $19.99 regular price").toList _ _ _ (by decide)⟩

/-! ## Claim C7 -/

/-- `String.toList` is a left inverse of `List.asString`. -/
theorem toList_asString (l : List Char) : (List.asString l).toList = l := rfl

/-- A digit character is not the dot. -/
theorem isDigit_ne_dot {c : Char} (h : c.isDigit = true) : c ≠ '.' := by
  intro he
  rw [he] at h
  exact absurd h (by decide)

/-- A whitespace character is not the dot. -/
theorem isSpace_ne_dot {c : Char} (h : isSpaceChar c = true) : c ≠ '.' := by
  intro he
  rw [he] at h
  exact absurd h (by decide)

/-- The matched keyword of the discount pattern contains no dot. -/
theorem matchKeyOFF_no_dot (ci : Bool) (cs off r : List Char)
    (h : matchKeyOFF ci cs = some (off, r)) : '.' ∉ off := by
  cases cs with
  | nil => simp [matchKeyOFF] at h
  | cons c1 tl1 =>
    cases tl1 with
    | nil => simp [matchKeyOFF] at h
    | cons c2 tl2 =>
      cases tl2 with
      | nil => simp [matchKeyOFF] at h
      | cons c3 rest =>
        cases ci with
        | true =>
          by_cases hcond : (c1.toLower = 'o' && c2.toLower = 'f' && c3.toLower = 'f') = true
          · simp [matchKeyOFF, hcond] at h
            obtain ⟨hoff, -⟩ := h
            subst hoff
            intro hmem
            rw [Bool.and_eq_true, Bool.and_eq_true] at hcond
            obtain ⟨⟨h1, h2⟩, h3⟩ := hcond
            have g1 : c1.toLower = 'o' := of_decide_eq_true h1
            have g2 : c2.toLower = 'f' := of_decide_eq_true h2
            have g3 : c3.toLower = 'f' := of_decide_eq_true h3
            simp only [List.mem_cons, List.not_mem_nil, or_false] at hmem
            rcases hmem with hq | hq | hq
            · rw [← hq] at g1; exact absurd g1 (by decide)
            · rw [← hq] at g2; exact absurd g2 (by decide)
            · rw [← hq] at g3; exact absurd g3 (by decide)
          · simp [matchKeyOFF, hcond] at h
        | false =>
          by_cases hcond : (c1 = 'O' && c2 = 'F' && c3 = 'F') = true
          · simp [matchKeyOFF, hcond] at h
            obtain ⟨hoff, -⟩ := h
            subst hoff
            intro hmem
            rw [Bool.and_eq_true, Bool.and_eq_true] at hcond
            obtain ⟨⟨h1, h2⟩, h3⟩ := hcond
            have g1 : c1 = 'O' := of_decide_eq_true h1
            have g2 : c2 = 'F' := of_decide_eq_true h2
            have g3 : c3 = 'F' := of_decide_eq_true h3
            simp only [List.mem_cons, List.not_mem_nil, or_false] at hmem
            rcases hmem with hq | hq | hq
            · rw [← hq] at g1; exact absurd g1 (by decide)
            · rw [← hq] at g2; exact absurd g2 (by decide)
            · rw [← hq] at g3; exact absurd g3 (by decide)
          · simp [matchKeyOFF, hcond] at h

/-- The optional cents group contributes at most one dot. -/
theorem matchCents_dots (cs : List Char) : ((matchCents cs).1.count '.') ≤ 1 := by
  cases cs with
  | nil => simp [matchCents]
  | cons p tl =>
    cases tl with
    | nil => simp [matchCents]
    | cons d1 tl2 =>
      cases tl2 with
      | nil => simp [matchCents]
      | cons d2 rest =>
        by_cases hcond : (p = '.' && d1.isDigit && d2.isDigit) = true
        · simp only [matchCents]
          rw [if_pos hcond]
          rw [Bool.and_eq_true, Bool.and_eq_true] at hcond
          obtain ⟨⟨h1, h2⟩, h3⟩ := hcond
          have hp : (p == '.') = true := by
            have hpe := of_decide_eq_true h1
            simp [hpe]
          have hd1 : (d1 == '.') = false := beq_eq_false_iff_ne.mpr (isDigit_ne_dot h2)
          have hd2 : (d2 == '.') = false := beq_eq_false_iff_ne.mpr (isDigit_ne_dot h3)
          simp [List.count_cons, hp, hd1, hd2]
        · simp only [matchCents]
          rw [if_neg hcond]
          simp

/-- No member of a digit run is the dot. -/
theorem not_dot_mem_digits (l : List Char) : '.' ∉ l.takeWhile Char.isDigit := by
  intro h
  exact absurd (List.mem_takeWhile_imp h) (by decide)

/-- No member of a whitespace run is the dot. -/
theorem not_dot_mem_spaces (l : List Char) : '.' ∉ l.takeWhile isSpaceChar := by
  intro h
  exact absurd (List.mem_takeWhile_imp h) (by decide)

/-- The matched text of the discount pattern contains at most one dot. -/
theorem matchDiscountAt_dots (ci : Bool) (cs m r : List Char)
    (h : matchDiscountAt ci cs = some (m, r)) : m.count '.' ≤ 1 := by
  cases cs with
  | nil => simp [matchDiscountAt] at h
  | cons c rest =>
    by_cases hc : c = '$'
    · by_cases hds : (rest.takeWhile Char.isDigit).isEmpty = true
      · simp [matchDiscountAt, hc, hds] at h
      · cases hk : matchKeyOFF ci
            ((matchCents (rest.dropWhile Char.isDigit)).2.dropWhile isSpaceChar) with
        | none => simp [matchDiscountAt, hc, hds, hk] at h
        | some offr =>
          obtain ⟨off, r4⟩ := offr
          subst hc
          simp only [matchDiscountAt, eq_self_iff_true, if_true, hds, Bool.false_eq_true,
            if_false, hk, Option.some.injEq, Prod.mk.injEq] at h
          obtain ⟨hm, -⟩ := h
          subst hm
          have hds0 : (rest.takeWhile Char.isDigit).count '.' = 0 :=
            List.count_eq_zero.mpr (not_dot_mem_digits rest)
          have hsp0 : ((matchCents (rest.dropWhile Char.isDigit)).2.takeWhile
              isSpaceChar).count '.' = 0 :=
            List.count_eq_zero.mpr (not_dot_mem_spaces _)
          have hoff0 : off.count '.' = 0 :=
            List.count_eq_zero.mpr (matchKeyOFF_no_dot ci _ off r4 hk)
          have hcents := matchCents_dots (rest.dropWhile Char.isDigit)
          simp only [List.count_cons, List.count_append]
          have hdollar : ('$' == '.') = false := by decide
          rw [hdollar]
          simp only [Bool.false_eq_true, if_false]
          omega
    · simp [matchDiscountAt, hc] at h

/-- Any discount-search result contains at most one dot. -/
theorem searchDiscount_dots (ci : Bool) (cs m : List Char)
    (h : searchDiscount ci cs = some m) : m.count '.' ≤ 1 := by
  induction cs with
  | nil => simp [searchDiscount] at h
  | cons c rest ih =>
    cases hm : matchDiscountAt ci (c :: rest) with
    | some mr =>
      obtain ⟨m1, r1⟩ := mr
      simp only [searchDiscount, hm, Option.some.injEq] at h
      subst h
      exact matchDiscountAt_dots ci (c :: rest) _ _ hm
    | none =>
      simp only [searchDiscount, hm] at h
      exact ih h

/-- The cleaned discount of any text consists of digits and dots only, with
at most one dot. -/
theorem discountCleanedStr_spec (cs : List Char) :
    (discountCleanedStr cs).toList.all (fun c => c.isDigit || c = '.') = true ∧
    (discountCleanedStr cs).toList.count '.' ≤ 1 := by
  unfold discountCleanedStr
  cases hs : searchDiscount true cs with
  | none => exact ⟨rfl, by simp⟩
  | some m =>
    rw [toList_asString]
    constructor
    · rw [List.all_eq_true]
      intro c hc
      have := (List.mem_filter.mp hc).2
      simpa using this
    · calc (m.filter (fun c => c.isDigit || c = '.')).count '.'
          ≤ m.count '.' := (List.filter_sublist m).count_le '.'
        _ ≤ 1 := searchDiscount_dots true cs m hs

/-- The text-level extraction fields of any produced record: the discount,
cleaned discount and original price come from the searches over the whole
OCR text. -/
theorem parse17_text_fields (text url : String) (isHot : Bool)
    (brands : List String) (fz : String → List String → Option String)
    (now : String) (rcd : CouponRow)
    (h : rcd ∈ parse17 text url isHot brands fz now) :
    rcd.discount = discountStr text.toList ∧
    rcd.discount_cleaned = discountCleanedStr text.toList ∧
    rcd.item_original_price = priceStr text.toList := by
  unfold parse17 at h
  obtain ⟨b, hb, hmk⟩ := List.mem_filterMap.mp h
  unfold mkRecord17 at hmk
  by_cases h1 : (blockLines b).isEmpty = true
  · simp [h1] at hmk
  · by_cases h2 : (decide ((blockFullText b).length < 10)
        || exclusionHit (blockFullText b)) = true
    · simp [h1, h2] at hmk
    · simp only [h1, h2, if_false, Bool.false_eq_true, Option.some.injEq] at hmk
      subst hmk
      exact ⟨rfl, rfl, rfl⟩

/-- C7: for every OCR text and every produced record, `discount_cleaned`
contains only decimal digits and at most one dot (and is empty when no
discount matched, which the all-digits-or-dot property covers vacuously). -/
theorem c7_theorem (text url : String) (isHot : Bool) (brands : List String)
    (fz : String → List String → Option String) (now : String) (rcd : CouponRow)
    (h : rcd ∈ parse17 text url isHot brands fz now) :
    rcd.discount_cleaned.toList.all (fun c => c.isDigit || c = '.') = true ∧
    rcd.discount_cleaned.toList.count '.' ≤ 1 := by
  obtain ⟨-, h2, -⟩ := parse17_text_fields text url isHot brands fz now rcd h
  rw [h2]
  exact discountCleanedStr_spec text.toList

/-- The record produced for the first block of the C7 witness text. -/
def c7row : CouponRow :=
  { scrape_datetime := "t0"
    article_name := "Costco April 2025 Coupon Book"
    publish_date := "2025-04-01 00:00:00"
    item_brand := "Big"
    item_description := "Sale Items"
    discount := "$5.99 OFF"
    discount_cleaned := "5.99"
    count_limit := ""
    channel := ""
    discount_period := "April 9th through May 4th"
    item_original_price := "$5.99"
    source_url := "u" }

/-- C7 witness: the theorem applied to a concrete record of a concrete
parse. -/
theorem c7_witness :
    c7row ∈ parse17 "Big Sale Items $5.99 OFF today" "u" false [] (fun _ _ => none) "t0" ∧
    (c7row.discount_cleaned.toList.all (fun c => c.isDigit || c = '.') = true ∧
      c7row.discount_cleaned.toList.count '.' ≤ 1) :=
  ⟨by decide,
   c7_theorem "Big Sale Items $5.99 OFF today" "u" false [] (fun _ _ => none) "t0"
     c7row (by decide)⟩

/-! ## Claim C4 -/

/-- Replacing every dollar sign by `S` leaves no dollar sign, provided the
fuel covers the input length (as it does on every `replaceAll` call). -/
theorem replaceGo_no_dollar : ∀ (fuel : Nat) (cs : List Char),
    cs.length ≤ fuel → '$' ∉ replaceGo ['$'] ['S'] fuel cs := by
  intro fuel
  induction fuel with
  | zero =>
    intro cs hlen
    have : cs = [] := List.eq_nil_of_length_eq_zero (Nat.le_zero.mp hlen)
    subst this
    simp [replaceGo]
  | succ k ih =>
    intro cs hlen
    cases cs with
    | nil => simp [replaceGo]
    | cons c rest =>
      have hrest : rest.length ≤ k := by simpa using hlen
      rw [replaceGo]
      by_cases hc : c = '$'
      · subst hc
        rw [if_pos (by simp [List.isPrefixOf])]
        intro hmem
        rcases List.mem_append.mp hmem with h1 | h2
        · simp at h1
        · have hrec : '$' ∉ replaceGo ['$'] ['S'] k (rest.drop (['$'].length - 1)) := by
            simpa using ih rest hrest
          exact hrec h2
      · have hcfalse : ¬ ((!(['$'] : List Char).isEmpty &&
            (['$'] : List Char).isPrefixOf (c :: rest)) = true) := by
          simp [List.isPrefixOf]
          exact fun he => hc he.symm
        rw [if_neg hcfalse]
        intro hmem
        rcases List.mem_cons.mp hmem with h1 | h2
        · exact hc h1.symm
        · exact ih rest hrest h2

/-- The corrected OCR text contains no dollar sign: the last correction step
replaces every `$` by `S` and no step reintroduces one after it. -/
theorem applyOcrCorrections_no_dollar (raw : String) :
    '$' ∉ (applyOcrCorrections raw).toList := by
  unfold applyOcrCorrections
  rw [toList_asString]
  exact replaceGo_no_dollar _ _ (Nat.le_refl _)

/-- Without a dollar sign the discount pattern cannot match anywhere. -/
theorem searchDiscount_no_dollar (ci : Bool) (cs : List Char) (h : '$' ∉ cs) :
    searchDiscount ci cs = none := by
  induction cs with
  | nil => rfl
  | cons c rest ih =>
    have hc : c ≠ '$' := fun he => h (he ▸ List.mem_cons_self c rest)
    rw [searchDiscount]
    have hatt : matchDiscountAt ci (c :: rest) = none := by
      simp only [matchDiscountAt]
      rw [if_neg hc]
    rw [hatt]
    exact ih (fun hm => h (List.mem_cons_of_mem c hm))

/-- Without a dollar sign the price pattern cannot match anywhere. -/
theorem searchPrice_no_dollar (cs : List Char) (h : '$' ∉ cs) :
    searchPrice cs = none := by
  induction cs with
  | nil => rfl
  | cons c rest ih =>
    have hc : c ≠ '$' := fun he => h (he ▸ List.mem_cons_self c rest)
    rw [searchPrice]
    have hatt : matchPriceAt (c :: rest) = none := by
      simp only [matchPriceAt]
      rw [if_neg hc]
    rw [hatt]
    exact ih (fun hm => h (List.mem_cons_of_mem c hm))

/-- C4: the glyph-correction table of `extract_text_from_image` maps `$` to
`S` (after `|→I`, `1→I`, `0→O`, `vv→W`), so corrected text contains no `$`;
consequently every record parsed from corrected text has empty `discount`,
`discount_cleaned` and `item_original_price`, since all three extractors
require a literal `$`. -/
theorem c4_theorem (raw url : String) (isHot : Bool) (brands : List String)
    (fz : String → List String → Option String) (now : String) (rcd : CouponRow)
    (h : rcd ∈ parse17 (applyOcrCorrections raw) url isHot brands fz now) :
    '$' ∉ (applyOcrCorrections raw).toList ∧
    rcd.discount = "" ∧ rcd.discount_cleaned = "" ∧ rcd.item_original_price = "" := by
  have hnd := applyOcrCorrections_no_dollar raw
  obtain ⟨h1, h2, h3⟩ :=
    parse17_text_fields (applyOcrCorrections raw) url isHot brands fz now rcd h
  refine ⟨hnd, ?_, ?_, ?_⟩
  · rw [h1]
    unfold discountStr
    rw [searchDiscount_no_dollar true _ hnd]
  · rw [h2]
    unfold discountCleanedStr
    rw [searchDiscount_no_dollar true _ hnd]
  · rw [h3]
    unfold priceStr
    rw [searchPrice_no_dollar _ hnd]

/-! ## Claim C3 -/

/-- Counting over a concatenation of per-element lists. -/
theorem countP_flat {α β : Type} (l : List α) (f : α → List β) (p : β → Bool) :
    (l.flatMap f).countP p = (l.map fun a => (f a).countP p).sum := by
  induction l with
  | nil => rfl
  | cons a t ih => simp [List.flatMap_cons, List.countP_append, ih]

/-- The sum of an indicator over a list is the count of the predicate. -/
theorem sum_map_indicator {α : Type} (l : List α) (p : α → Bool) :
    (l.map fun a => if p a then (1 : Nat) else 0).sum = l.countP p := by
  induction l with
  | nil => rfl
  | cons a t ih =>
    by_cases hpa : p a = true
    · simp [List.countP_cons, hpa, ih, Nat.add_comm]
    · simp [List.countP_cons, hpa, ih]

/-- Counting the occurrences of a fixed value in `range n`. -/
theorem countP_range_eq_one (n k : Nat) (hk : k < n) :
    (List.range n).countP (fun i => decide (i = k)) = 1 := by
  induction n with
  | zero => omega
  | succ m ih =>
    rw [List.range_succ, List.countP_append]
    by_cases hkm : k = m
    · subst hkm
      have h0 : (List.range k).countP (fun i => decide (i = k)) = 0 := by
        refine List.countP_eq_zero.mpr ?_
        intro i hi
        have := List.mem_range.mp hi
        simp
        omega
      simp [h0]
    · have hklt : k < m := by omega
      rw [ih hklt]
      have h1 : ([m].countP fun i => decide (i = k)) = 0 := by
        simp
        omega
      omega

/-- Floor-division characterizes cell membership in one dimension. -/
theorem div_eq_iff_cell (cw x col : Nat) (hcw : 0 < cw) :
    x / cw = col ↔ (col * cw ≤ x ∧ x < (col + 1) * cw) := by
  constructor
  · rintro rfl
    refine ⟨Nat.div_mul_le_self x cw, ?_⟩
    have h1 := Nat.div_add_mod x cw
    have h2 := Nat.mod_lt x hcw
    have h3 : (x / cw + 1) * cw = cw * (x / cw) + cw := by ring
    omega
  · rintro ⟨h1, h2⟩
    exact Nat.div_eq_of_lt_le h1 h2

/-- A pixel lies in the grid cell `(col, row)` exactly when floor-dividing
its coordinates by the cell sizes yields those indices. -/
theorem inBox_grid_iff (cw ch x y col row : Nat) (hcw : 0 < cw) (hch : 0 < ch) :
    inBox x y ⟨col * cw, row * ch, (col + 1) * cw, (row + 1) * ch⟩ = true ↔
      (col = x / cw ∧ row = y / ch) := by
  unfold inBox
  simp only [Bool.and_eq_true, decide_eq_true_eq]
  constructor
  · rintro ⟨⟨⟨h1, h2⟩, h3⟩, h4⟩
    exact ⟨((div_eq_iff_cell cw x col hcw).mpr ⟨h1, h2⟩).symm,
           ((div_eq_iff_cell ch y row hch).mpr ⟨h3, h4⟩).symm⟩
  · rintro ⟨hcol, hrow⟩
    subst hcol
    subst hrow
    obtain ⟨h1, h2⟩ := (div_eq_iff_cell cw x (x / cw) hcw).mp rfl
    obtain ⟨h3, h4⟩ := (div_eq_iff_cell ch y (y / ch) hch).mp rfl
    exact ⟨⟨⟨h1, h2⟩, h3⟩, h4⟩

/-- C3 counterexample: on a 10 by 2 image with no detected peaks, app14 uses
3 columns of width `10 // 3 = 3`, so the rightmost pixel column `x = 9` is
covered by no crop box — the returned sub-images do not tile the source. -/
theorem c3_counterexample :
    ¬ (∀ x y : Nat, x < 10 → y < 2 → coverCount (gridBoxes 10 2 0 0) x y = 1) := by
  intro hall
  have h1 := hall 9 0 (by omega) (by omega)
  have h0 : coverCount (gridBoxes 10 2 0 0) 9 0 = 0 := by decide
  omega

/-- C3 (amended): the crop boxes of `split_grid_image_dynamic` (app14) are
pairwise disjoint and cover each pixel of the `columns * (width // columns)`
by `rows * (height // rows)` region exactly once; they tile the whole source
image exactly when the chosen column count divides the width and the chosen
row count divides the height — otherwise the right/bottom remainder pixels
are uncovered (see the counterexample). -/
theorem c3_theorem (w h vp hp x y : Nat)
    (hc : gridCols w vp ∣ w) (hr : gridRows hp ∣ h) (hx : x < w) (hy : y < h) :
    coverCount (gridBoxes w h vp hp) x y = 1 := by
  unfold coverCount gridBoxes
  have hcolpos : 0 < gridCols w vp := by
    unfold gridCols
    split
    · omega
    · split <;> omega
  have hrowpos : 0 < gridRows hp := by
    unfold gridRows
    split <;> omega
  set cols := gridCols w vp with hcols
  set rows := gridRows hp with hrows
  set cw := w / cols with hcwdef
  set ch := h / rows with hchdef
  have hw : cols * cw = w := Nat.mul_div_cancel' hc
  have hh : rows * ch = h := Nat.mul_div_cancel' hr
  have hcwpos : 0 < cw := by
    rcases Nat.eq_zero_or_pos cw with h0 | h0
    · rw [h0, Nat.mul_zero] at hw
      omega
    · exact h0
  have hchpos : 0 < ch := by
    rcases Nat.eq_zero_or_pos ch with h0 | h0
    · rw [h0, Nat.mul_zero] at hh
      omega
    · exact h0
  have hxcols : x / cw < cols := by
    rw [Nat.div_lt_iff_lt_mul hcwpos]
    omega
  have hyrows : y / ch < rows := by
    rw [Nat.div_lt_iff_lt_mul hchpos]
    omega
  rw [countP_flat]
  have inner : ∀ row ∈ List.range rows,
      ((List.range cols).map (fun col =>
          CropBox.mk (col * cw) (row * ch) ((col + 1) * cw) ((row + 1) * ch))).countP
        (inBox x y) = if decide (row = y / ch) then (1 : Nat) else 0 := by
    intro row _
    rw [List.countP_map]
    by_cases hrow : row = y / ch
    · rw [if_pos (by simpa using hrow)]
      have hcong : ∀ col ∈ List.range cols,
          (inBox x y ⟨col * cw, row * ch, (col + 1) * cw, (row + 1) * ch⟩ = true) ↔
            (decide (col = x / cw) = true) := by
        intro col _
        rw [inBox_grid_iff cw ch x y col row hcwpos hchpos]
        simp [hrow]
      exact (List.countP_congr hcong).trans (countP_range_eq_one cols (x / cw) hxcols)
    · rw [if_neg (by simpa using hrow)]
      refine List.countP_eq_zero.mpr ?_
      intro col _
      intro hmem
      have := (inBox_grid_iff cw ch x y col row hcwpos hchpos).mp hmem
      exact hrow this.2
  rw [List.map_congr_left inner]
  rw [sum_map_indicator]
  exact countP_range_eq_one rows (y / ch) hyrows

/-- C3 witness: a 12 by 4 image with no peaks gets 3 columns and 2 rows; 3
divides 12 and 2 divides 4, and the pixel `(5, 3)` is covered exactly once. -/
theorem c3_witness :
    (gridCols 12 0 ∣ 12) ∧ (gridRows 0 ∣ 4) ∧ 5 < 12 ∧ 3 < 4 ∧
      coverCount (gridBoxes 12 4 0 0) 5 3 = 1 :=
  ⟨by decide, by decide, by decide, by decide,
   c3_theorem 12 4 0 0 5 3 (by decide) (by decide) (by decide) (by decide)⟩

/-! ## Claim C6 -/

/-- Collapsing whitespace runs never lengthens the text. -/
theorem collapseWsAux_length (cs : List Char) : ∀ b : Bool,
    (collapseWsAux b cs).length ≤ cs.length := by
  induction cs with
  | nil => intro b; simp [collapseWsAux]
  | cons c rest ih =>
    intro b
    by_cases hsp : isSpaceChar c = true
    · cases b
      · simp only [collapseWsAux, hsp, if_true, Bool.false_eq_true, if_false,
          List.length_append, List.length_cons, List.length_nil]
        have := ih true
        omega
      · simp only [collapseWsAux, hsp, if_true, List.length_append, List.length_cons,
          List.length_nil]
        have := ih true
        omega
    · simp only [collapseWsAux, hsp, Bool.false_eq_true, if_false, List.length_cons]
      have := ih false
      omega

/-- Stripping never lengthens the text. -/
theorem stripWs_length (cs : List Char) : (stripWs cs).length ≤ cs.length := by
  unfold stripWs
  rw [List.length_reverse]
  calc ((cs.dropWhile isSpaceChar).reverse.dropWhile isSpaceChar).length
      ≤ (cs.dropWhile isSpaceChar).reverse.length := (List.dropWhile_sublist _).length_le
    _ = (cs.dropWhile isSpaceChar).length := List.length_reverse _
    _ ≤ cs.length := (List.dropWhile_sublist _).length_le

/-- When the stripped block text begins (case-insensitively) with the brand,
the description derivation removes that occurrence: the result is shorter
than the block text by at least the brand's length. -/
theorem descOf_length (fullText : List Char) (brand : String)
    (hb : ¬ brand.isEmpty = true)
    (hpre : (lowerL brand.toList).isPrefixOf (lowerL (stripWs fullText)) = true) :
    (descOf fullText brand).length + brand.toList.length ≤ fullText.length := by
  simp only [descOf, dropBrandHead]
  rw [if_neg hb, if_pos hpre]
  have hn : brand.toList.length ≤ (stripWs fullText).length := by
    have hlen := (List.isPrefixOf_iff_prefix.mp hpre).length_le
    simpa [lowerL] using hlen
  have l1 : (stripWs (((stripWs fullText).drop brand.toList.length).dropWhile
      sepChar)).length ≤ (stripWs fullText).length - brand.toList.length := by
    calc (stripWs (((stripWs fullText).drop brand.toList.length).dropWhile
            sepChar)).length
        ≤ (((stripWs fullText).drop brand.toList.length).dropWhile sepChar).length :=
          stripWs_length _
      _ ≤ ((stripWs fullText).drop brand.toList.length).length :=
          (List.dropWhile_sublist _).length_le
      _ = (stripWs fullText).length - brand.toList.length := List.length_drop _ _
  set d1 := stripWs (((stripWs fullText).drop brand.toList.length).dropWhile sepChar)
    with hd1
  have l2 : (d1.dropWhile (fun c => !isAlnumAscii c)).length ≤ d1.length :=
    (List.dropWhile_sublist _).length_le
  set d2 := d1.dropWhile (fun c => !isAlnumAscii c) with hd2
  have l3 : ((d2.reverse.dropWhile (fun c => !isAlnumAscii c)).reverse).length
      ≤ d2.length := by
    rw [List.length_reverse]
    calc (d2.reverse.dropWhile (fun c => !isAlnumAscii c)).length
        ≤ d2.reverse.length := (List.dropWhile_sublist _).length_le
      _ = d2.length := List.length_reverse _
  set d3 := (d2.reverse.dropWhile (fun c => !isAlnumAscii c)).reverse with hd3
  have l4 : (collapseWs d3).length ≤ d3.length := by
    unfold collapseWs
    exact collapseWsAux_length d3 false
  have l0 : (stripWs fullText).length ≤ fullText.length := stripWs_length fullText
  omega

/-- C6 counterexample: on the block `"Charmin Charmin ultra soft rolls"` with
catalog `["Charmin"]`, the produced record has `item_brand = "Charmin"` and
`item_description = "Charmin ultra soft rolls"` — the description begins with
the brand (case-insensitively), because the removal regex is anchored and
strips only the first occurrence. -/
theorem c6_counterexample :
    (parse17 "Charmin Charmin ultra soft rolls" "u" false ["Charmin"]
        (fun _ _ => none) "t0").map (fun r => (r.item_brand, r.item_description)) =
      [("Charmin", "Charmin ultra soft rolls")] ∧
    (lowerL ("Charmin" : String).toList).isPrefixOf
      (lowerL ("Charmin ultra soft rolls" : String).toList) = true ∧
    ("Charmin" : String) ≠ "" :=
  ⟨by decide, by decide, by decide⟩

/-- C6 (amended): the description never keeps the leading occurrence of the
brand — for every produced record with a non-empty brand, if the stripped
block text begins (case-insensitively) with that brand, then that occurrence
and its trailing separators were removed, so the description is shorter than
the block text by at least the brand's length.  The description may still
begin with the brand when the block repeats it (see the counterexample). -/
theorem c6_theorem (textCs : List Char) (url : String) (isHot : Bool)
    (brands : List String) (fz : String → List String → Option String)
    (now : String) (block : List Char) (rcd : CouponRow)
    (hmk : mkRecord17 textCs url isHot brands fz now block = some rcd)
    (hb : rcd.item_brand.isEmpty = false)
    (hpre : (lowerL rcd.item_brand.toList).isPrefixOf
        (lowerL (stripWs (blockFullText block))) = true) :
    rcd.item_description.length + rcd.item_brand.length ≤
      (blockFullText block).length := by
  unfold mkRecord17 at hmk
  by_cases h1 : (blockLines block).isEmpty = true
  · simp [h1] at hmk
  · by_cases h2 : (decide ((blockFullText block).length < 10)
        || exclusionHit (blockFullText block)) = true
    · simp [h1, h2] at hmk
    · simp only [h1, h2, if_false, Bool.false_eq_true, Option.some.injEq] at hmk
      subst hmk
      have hb' : (brandOf brands fz (blockFullText block)).isEmpty = false := hb
      have hpre' : (lowerL (brandOf brands fz (blockFullText block)).toList).isPrefixOf
          (lowerL (stripWs (blockFullText block))) = true := hpre
      have hres := descOf_length (blockFullText block)
        (brandOf brands fz (blockFullText block)) (by simp [hb']) hpre'
      exact hres

/-- The record produced for the C6 witness block. -/
def c6row : CouponRow :=
  { scrape_datetime := "t0"
    article_name := "Costco April 2025 Coupon Book"
    publish_date := "2025-04-01 00:00:00"
    item_brand := "Charmin"
    item_description := "Charmin ultra soft rolls"
    discount := ""
    discount_cleaned := ""
    count_limit := ""
    channel := ""
    discount_period := "April 9th through May 4th"
    item_original_price := ""
    source_url := "u" }

/-- C6 witness: the amended theorem applied to a concrete block and record. -/
theorem c6_witness :
    mkRecord17 ("Charmin Charmin ultra soft rolls").toList "u" false ["Charmin"]
        (fun _ _ => none) "t0" ("Charmin Charmin ultra soft rolls").toList =
      some c6row ∧
    c6row.item_brand.isEmpty = false ∧
    (lowerL c6row.item_brand.toList).isPrefixOf
      (lowerL (stripWs (blockFullText ("Charmin Charmin ultra soft rolls").toList)))
        = true ∧
    c6row.item_description.length + c6row.item_brand.length ≤
      (blockFullText ("Charmin Charmin ultra soft rolls").toList).length :=
  ⟨by decide, by decide, by decide,
   c6_theorem ("Charmin Charmin ultra soft rolls").toList "u" false ["Charmin"]
     (fun _ _ => none) "t0" ("Charmin Charmin ultra soft rolls").toList c6row
     (by decide) (by decide) (by decide)⟩

/-- The record produced from the corrected form of the C4 witness text. -/
def c4row : CouponRow :=
  { scrape_datetime := "t0"
    article_name := "Costco April 2025 Coupon Book"
    publish_date := "2025-04-01 00:00:00"
    item_brand := "Kirkland"
    item_description := "paper towels S5 OFF pack"
    discount := ""
    discount_cleaned := ""
    count_limit := ""
    channel := ""
    discount_period := "April 9th through May 4th"
    item_original_price := ""
    source_url := "u" }

/-- C4 witness: the theorem applied to the record parsed from the corrected
form of a raw OCR text that contained a dollar discount. -/
theorem c4_witness :
    c4row ∈ parse17 (applyOcrCorrections "Kirkland paper towels $5 OFF pack") "u"
        false [] (fun _ _ => none) "t0" ∧
    ('$' ∉ (applyOcrCorrections "Kirkland paper towels $5 OFF pack").toList ∧
      c4row.discount = "" ∧ c4row.discount_cleaned = "" ∧
      c4row.item_original_price = "") :=
  ⟨by decide,
   c4_theorem "Kirkland paper towels $5 OFF pack" "u" false [] (fun _ _ => none) "t0"
     c4row (by decide)⟩

end Scrapper
